import Mathlib

/-!
Verification of the AFP_Sim sinusoid-simulator core.

The numeric code of the repository (src/math/signal.ts, the audio hook
src/audio/useWebAudioSine.ts, the phasor and time-plot canvases, and the
simulation clock in the App component) is shallowly embedded over the real
numbers: JavaScript double arithmetic is idealised as exact real arithmetic,
which is the reading the specification itself takes (its floating-point
statements are "within floating tolerance").  The JavaScript remainder
operator, which truncates toward zero, is modelled faithfully by jsMod.
-/

namespace AFPSim

open Real

noncomputable section

/-- Signal parameters, from SignalParams in src/math/signal.ts. -/
structure SignalParams where
  amplitude : ℝ
  frequency : ℝ
  phaseRad : ℝ

/-- From src/math/signal.ts. -/
def MIN_AMPLITUDE : ℝ := 0

/-- From src/math/signal.ts. -/
def MAX_AMPLITUDE : ℝ := 5

/-- From src/math/signal.ts. -/
def MIN_VISUAL_FREQUENCY : ℝ := 0.1

/-- From src/math/signal.ts. -/
def MAX_VISUAL_FREQUENCY : ℝ := 20

/-- From src/math/signal.ts. -/
def MIN_AUDIO_FREQUENCY : ℝ := 20

/-- From src/math/signal.ts. -/
def MAX_AUDIO_FREQUENCY : ℝ := 2000

/-- From src/math/signal.ts: clamp(value, min, max) = Math.min(max, Math.max(min, value)). -/
def clamp (value lo hi : ℝ) : ℝ := min hi (max lo value)

/-- JavaScript truncation toward zero, as performed by the remainder operator. -/
def jsTrunc (x : ℝ) : ℤ := if 0 ≤ x then ⌊x⌋ else ⌈x⌉

/-- The JavaScript remainder a % b for finite operands: a - b * trunc(a / b),
so the result carries the sign of the dividend a. -/
def jsMod (a b : ℝ) : ℝ := a - b * jsTrunc (a / b)

/-- From src/math/signal.ts: normalizePhase wraps a phase into a principal range
with the JavaScript double-remainder idiom, then redefines an exact -pi to pi. -/
def normalizePhase (phaseRad : ℝ) : ℝ :=
  let tau := 2 * π
  let wrapped := jsMod (jsMod (phaseRad + π) tau + tau) tau - π
  if wrapped = -π then π else wrapped

/-- From src/math/signal.ts: thetaAt(t, signal) = 2 pi f t + phi. -/
def thetaAt (tSec : ℝ) (signal : SignalParams) : ℝ :=
  2 * π * signal.frequency * tSec + signal.phaseRad

/-- From src/math/signal.ts: signalAt(t, signal) = A sin(thetaAt(t, signal)). -/
def signalAt (tSec : ℝ) (signal : SignalParams) : ℝ :=
  signal.amplitude * Real.sin (thetaAt tSec signal)

/-- From src/math/signal.ts: periodFromFrequency(f) = 1 / max(f, 1e-6). -/
def periodFromFrequency (frequencyHz : ℝ) : ℝ :=
  let safeFreq := max frequencyHz 1e-6
  1 / safeFreq

/-- From src/math/signal.ts: angularFrequency(f) = 2 pi f. -/
def angularFrequency (frequencyHz : ℝ) : ℝ := 2 * π * frequencyHz

/-- From src/math/signal.ts: phaseDifferenceRad(phi1, phi2) = normalizePhase(phi2 - phi1). -/
def phaseDifferenceRad (phi1 phi2 : ℝ) : ℝ := normalizePhase (phi2 - phi1)

/-- From src/math/signal.ts: adaptiveSampleCount computes a frequency-driven and a
pixel-driven candidate count and clamps their maximum to [320, 12000]. -/
def adaptiveSampleCount (maxFrequencyHz windowSeconds pixelWidth : ℝ) : ℝ :=
  let kSamplesPerCycleWindow : ℝ := 220
  let byFrequency : ℝ :=
    (⌈kSamplesPerCycleWindow * max maxFrequencyHz MIN_VISUAL_FREQUENCY * windowSeconds⌉ : ℤ)
  let byPixels : ℝ := (⌈pixelWidth * 1.6⌉ : ℤ)
  let minSamples : ℝ := 320
  let maxSamples : ℝ := 12000
  clamp (max minSamples (max byFrequency byPixels)) minSamples maxSamples

/-- From src/math/signal.ts: maxDisplayedAmplitude, with the optional second signal
modelled as an Option and the showSum / showDiff defaults passed explicitly. -/
def maxDisplayedAmplitude (signal1 : SignalParams) (signal2 : Option SignalParams)
    (showSum showDiff : Bool) : ℝ :=
  let maxValue := max 1 signal1.amplitude
  match signal2 with
  | none => maxValue
  | some s2 =>
    let maxValue := max maxValue s2.amplitude
    let maxValue :=
      if showSum then max maxValue (signal1.amplitude + s2.amplitude) else maxValue
    let maxValue :=
      if showDiff then max maxValue (signal1.amplitude + s2.amplitude) else maxValue
    maxValue

/-- From src/audio/useWebAudioSine.ts. -/
def MAX_GAIN : ℝ := 0.2

/-- From src/audio/useWebAudioSine.ts: the safeFrequency value computed in start()
and in the parameter-update effect: clamp(frequency, 20, 2000). -/
def safeFrequency (frequency : ℝ) : ℝ :=
  clamp frequency MIN_AUDIO_FREQUENCY MAX_AUDIO_FREQUENCY

/-- From src/audio/useWebAudioSine.ts: the safeGain value computed in start()
and in the parameter-update effect: clamp(amplitude / 5, 0, 1) * 0.2. -/
def safeGain (amplitude : ℝ) : ℝ :=
  clamp (amplitude / MAX_AMPLITUDE) 0 1 * MAX_GAIN

/-- The phasor canvas y-component of signal 1 (PhasorCanvas, v1y):
amplitude * sin(thetaAt(tNow, signal1)). -/
def v1y (tNow : ℝ) (signal1 : SignalParams) : ℝ :=
  signal1.amplitude * Real.sin (thetaAt tNow signal1)

/-- The time-plot canvas sweep start: tStart = tNow - windowSec. -/
def tStart (tNow windowSec : ℝ) : ℝ := tNow - windowSec

/-- The time-plot canvas sample spacing factor:
invSample = sampleCount > 1 ? 1 / (sampleCount - 1) : 1. -/
def invSample (sampleCount : ℕ) : ℝ :=
  if 1 < sampleCount then 1 / ((sampleCount : ℝ) - 1) else 1

/-- The i-th entry written into the y1 waveform buffer by the TimePlotCanvas fill
loop: signalAt(tStart + i * invSample * windowSec, signal1). -/
def y1Buffer (tNow windowSec : ℝ) (sampleCount : ℕ) (signal1 : SignalParams)
    (i : ℕ) : ℝ :=
  signalAt (tStart tNow windowSec + (i : ℝ) * invSample sampleCount * windowSec) signal1

/-- The simulation-clock state held by the App component: the isPlaying flag, the
accumulated simulation time (simTimeRef), the previous animation-frame timestamp
in milliseconds (lastRafMsRef, null when absent), and the published tNow. -/
structure ClockState where
  isPlaying : Bool
  simTime : ℝ
  lastRafMs : Option ℝ
  tNow : ℝ

/-- One requestAnimationFrame tick of the App clock: while playing, accumulate
(nowMs - lastRafMs) / 1000 when a previous timestamp is stored, record nowMs as
the new baseline, and publish the accumulated time as tNow.  While paused the
tick loop is not subscribed, so the state is unchanged. -/
def tick (nowMs : ℝ) (s : ClockState) : ClockState :=
  if s.isPlaying then
    let simTime :=
      match s.lastRafMs with
      | some lastMs => s.simTime + (nowMs - lastMs) / 1000
      | none => s.simTime
    { s with simTime := simTime, lastRafMs := some nowMs, tNow := simTime }
  else
    s

/-- The clock-relevant assignments of handleReset in the App component:
simTimeRef.current = 0, lastRafMsRef.current = null, setTNow(0),
setIsPlaying(true). -/
def handleReset (_s : ClockState) : ClockState :=
  { isPlaying := true, simTime := 0, lastRafMs := none, tNow := 0 }

end

/-! ### Helper lemmas about the JavaScript remainder -/

lemma jsMod_spec (a b : ℝ) (hb : 0 < b) :
    ∃ k : ℤ, jsMod a b = a - b * k ∧ -b < jsMod a b ∧ jsMod a b < b ∧
      (0 ≤ a → 0 ≤ jsMod a b) := by
  refine ⟨jsTrunc (a / b), rfl, ?_⟩
  have hbne : b ≠ 0 := ne_of_gt hb
  have hself : b * (a / b) = a := by field_simp
  unfold jsMod jsTrunc
  by_cases h : 0 ≤ a / b
  · rw [if_pos h]
    have e : a - b * (⌊a / b⌋ : ℝ) = b * Int.fract (a / b) := by
      rw [Int.fract, mul_sub, hself]
    have f0 := Int.fract_nonneg (a / b)
    have f1 := Int.fract_lt_one (a / b)
    have q0 : 0 ≤ b * Int.fract (a / b) := mul_nonneg hb.le f0
    have q1 : b * Int.fract (a / b) < b := by
      calc b * Int.fract (a / b) < b * 1 := by
            exact mul_lt_mul_of_pos_left f1 hb
        _ = b := mul_one b
    exact ⟨by linarith, by linarith, fun _ => by linarith⟩
  · rw [if_neg h]
    have e : a - b * (⌈a / b⌉ : ℝ) = -(b * ((⌈a / b⌉ : ℝ) - a / b)) := by
      rw [mul_sub, hself]; ring
    have g0 : 0 ≤ (⌈a / b⌉ : ℝ) - a / b := by linarith [Int.le_ceil (a / b)]
    have g1 : (⌈a / b⌉ : ℝ) - a / b < 1 := by linarith [Int.ceil_lt_add_one (a / b)]
    have q0 : 0 ≤ b * ((⌈a / b⌉ : ℝ) - a / b) := mul_nonneg hb.le g0
    have q1 : b * ((⌈a / b⌉ : ℝ) - a / b) < b := by
      calc b * ((⌈a / b⌉ : ℝ) - a / b) < b * 1 := by
            exact mul_lt_mul_of_pos_left g1 hb
        _ = b := mul_one b
    have hna : a < 0 := by
      have hq : a / b < 0 := lt_of_not_ge h
      have := mul_neg_of_pos_of_neg hb hq
      rwa [hself] at this
    exact ⟨by linarith, by linarith, fun ha => absurd ha (not_le.mpr hna)⟩

lemma residue_eq (a b : ℝ) (hb : 0 < b) (k : ℤ) (h0 : 0 ≤ a - b * k)
    (h1 : a - b * k < b) : ⌊a / b⌋ = k := by
  rw [Int.floor_eq_iff]
  constructor
  · rw [le_div_iff₀ hb]; linarith
  · rw [div_lt_iff₀ hb]; linarith

lemma residue_bounds (a b : ℝ) (hb : 0 < b) :
    0 ≤ a - b * ⌊a / b⌋ ∧ a - b * ⌊a / b⌋ < b := by
  have hbne : b ≠ 0 := ne_of_gt hb
  have hself : b * (a / b) = a := by field_simp
  have e : a - b * (⌊a / b⌋ : ℝ) = b * Int.fract (a / b) := by
    rw [Int.fract, mul_sub, hself]
  have f0 := Int.fract_nonneg (a / b)
  have f1 := Int.fract_lt_one (a / b)
  constructor
  · rw [e]; exact mul_nonneg hb.le f0
  · rw [e]
    calc b * Int.fract (a / b) < b * 1 := by exact mul_lt_mul_of_pos_left f1 hb
      _ = b := mul_one b

lemma jsMod_jsMod_add (a b : ℝ) (hb : 0 < b) :
    jsMod (jsMod a b + b) b = a - b * ⌊a / b⌋ := by
  obtain ⟨k, hk, hklo, hkhi, _⟩ := jsMod_spec a b hb
  obtain ⟨k2, hk2, hk2lo, hk2hi, hk2nn⟩ := jsMod_spec (jsMod a b + b) b hb
  have hpos : 0 ≤ jsMod a b + b := by linarith
  have hr0 : 0 ≤ jsMod (jsMod a b + b) b := hk2nn hpos
  have hr : jsMod (jsMod a b + b) b = a - b * ((k + k2 - 1 : ℤ) : ℝ) := by
    rw [hk2, hk]; push_cast; ring
  have hfloor : ⌊a / b⌋ = k + k2 - 1 := by
    apply residue_eq a b hb
    · linarith [hr, hr0]
    · linarith [hr, hk2hi]
  rw [hfloor, hr]

/-! ### Characterisation of normalizePhase -/

lemma normalizePhase_eq (φ : ℝ) :
    normalizePhase φ =
      if φ + π - 2 * π * ⌊(φ + π) / (2 * π)⌋ - π = -π then π
      else φ + π - 2 * π * ⌊(φ + π) / (2 * π)⌋ - π := by
  simp only [normalizePhase]
  rw [jsMod_jsMod_add _ _ (by positivity)]

lemma normalizePhase_mem (φ : ℝ) : -π < normalizePhase φ ∧ normalizePhase φ ≤ π := by
  have h2pi : (0 : ℝ) < 2 * π := by positivity
  obtain ⟨h0, h1⟩ := residue_bounds (φ + π) (2 * π) h2pi
  rw [normalizePhase_eq]
  split
  · exact ⟨by linarith [pi_pos], le_rfl⟩
  · rename_i h
    have hge : -π ≤ φ + π - 2 * π * ⌊(φ + π) / (2 * π)⌋ - π := by linarith
    exact ⟨lt_of_le_of_ne hge (Ne.symm h), by linarith⟩

lemma normalizePhase_add_two_pi (φ : ℝ) :
    normalizePhase (φ + 2 * π) = normalizePhase φ := by
  have h2pi : (0 : ℝ) < 2 * π := by positivity
  have hdiv : (φ + 2 * π + π) / (2 * π) = (φ + π) / (2 * π) + 1 := by
    field_simp
    ring
  have hfl : ⌊(φ + 2 * π + π) / (2 * π)⌋ = ⌊(φ + π) / (2 * π)⌋ + 1 := by
    rw [hdiv, Int.floor_add_one]
  have hw : φ + 2 * π + π - 2 * π * ((⌊(φ + π) / (2 * π)⌋ + 1 : ℤ) : ℝ) - π
      = φ + π - 2 * π * ⌊(φ + π) / (2 * π)⌋ - π := by
    push_cast
    ring
  rw [normalizePhase_eq, normalizePhase_eq, hfl, hw]

lemma normalizePhase_fixed (w : ℝ) (hlo : -π < w) (hhi : w ≤ π) :
    normalizePhase w = w := by
  have h2pi : (0 : ℝ) < 2 * π := by positivity
  rcases eq_or_lt_of_le hhi with heq | hlt
  · rw [heq]
    have hfl : ⌊(π + π) / (2 * π)⌋ = 1 := by
      have hd : (π + π) / (2 * π) = 1 := by
        field_simp
        ring
      rw [hd, Int.floor_one]
    rw [normalizePhase_eq, hfl]
    rw [if_pos (by push_cast; ring)]
  · have hfl : ⌊(w + π) / (2 * π)⌋ = 0 := by
      apply Int.floor_eq_zero_iff.mpr
      constructor
      · exact div_nonneg (by linarith) h2pi.le
      · rw [div_lt_one h2pi]; linarith
    rw [normalizePhase_eq, hfl]
    have hcond : w + π - 2 * π * ((0 : ℤ) : ℝ) - π ≠ -π := by
      push_cast
      intro hc
      have : w = -π := by linarith
      exact absurd this (ne_of_gt hlo)
    rw [if_neg hcond]
    push_cast
    ring

/-! ### Claim theorems -/

/-- C3: for every real phi, normalizePhase(phi) lies in the half-open interval
(-pi, pi] (a value wrapping exactly to -pi is redefined to +pi), and
normalizePhase(phi + 2 pi) equals normalizePhase(phi). -/
theorem normalizePhase_range_and_periodic (φ : ℝ) :
    normalizePhase φ ∈ Set.Ioc (-π) π ∧
      normalizePhase (φ + 2 * π) = normalizePhase φ :=
  ⟨⟨(normalizePhase_mem φ).1, (normalizePhase_mem φ).2⟩, normalizePhase_add_two_pi φ⟩

/-- C10: normalizePhase is idempotent: applying it twice gives the same result
as applying it once, every output already lying in its principal range. -/
theorem normalizePhase_idempotent (φ : ℝ) :
    normalizePhase (normalizePhase φ) = normalizePhase φ :=
  normalizePhase_fixed _ (normalizePhase_mem φ).1 (normalizePhase_mem φ).2

/-- C5 counterexample: for f = 1e-7, which is positive, the product
periodFromFrequency(f) * f evaluates to 1/10, not 1, because the epsilon floor
max(f, 1e-6) replaces f; so the claim as stated over all f > 0 is false. -/
theorem periodFromFrequency_product_cex :
    0 < (1 : ℝ) / 10000000 ∧
      periodFromFrequency ((1 : ℝ) / 10000000) * ((1 : ℝ) / 10000000) = 1 / 10 := by
  constructor
  · norm_num
  · simp only [periodFromFrequency]
    rw [max_eq_right (by norm_num : (1 : ℝ) / 10000000 ≤ 1e-6)]
    norm_num

/-- C5 amended: for every f at or above the epsilon floor 1e-6 (in particular
every frequency the application can request), periodFromFrequency(f) * f = 1
exactly. -/
theorem periodFromFrequency_product (f : ℝ) (hf : 1e-6 ≤ f) :
    periodFromFrequency f * f = 1 := by
  have hfpos : (0 : ℝ) < f := lt_of_lt_of_le (by norm_num) hf
  simp only [periodFromFrequency]
  rw [max_eq_left hf]
  field_simp

/-- Witness for C5 at f = 1. -/
theorem periodFromFrequency_product_witness :
    (1e-6 : ℝ) ≤ 1 ∧ periodFromFrequency 1 * 1 = 1 :=
  ⟨by norm_num, periodFromFrequency_product 1 (by norm_num)⟩

/-- C2: adaptiveSampleCount(20, 10, 800) = 12000 (the frequency-driven candidate
44000 exceeds maxSamples, so the clamp fires) and adaptiveSampleCount(0.1, 1, 50)
= 320 (both candidates fall below the minSamples floor). -/
theorem adaptiveSampleCount_examples :
    adaptiveSampleCount 20 10 800 = 12000 ∧ adaptiveSampleCount 0.1 1 50 = 320 := by
  constructor
  · simp only [adaptiveSampleCount, clamp, MIN_VISUAL_FREQUENCY]
    rw [max_eq_left (by norm_num : (0.1 : ℝ) ≤ 20)]
    norm_num
  · simp only [adaptiveSampleCount, clamp, MIN_VISUAL_FREQUENCY]
    rw [max_self]
    norm_num

/-- C8: for all real inputs (including non-positive frequencies), the value of
adaptiveSampleCount is an integer N with 320 ≤ N ≤ 12000. -/
theorem adaptiveSampleCount_bounds (f w p : ℝ) :
    ∃ n : ℤ, adaptiveSampleCount f w p = (n : ℝ) ∧ 320 ≤ n ∧ n ≤ 12000 := by
  refine ⟨min 12000 (max 320 (max ⌈220 * max f MIN_VISUAL_FREQUENCY * w⌉ ⌈p * 1.6⌉)),
    ?_, ?_, ?_⟩
  · simp only [adaptiveSampleCount, clamp]
    push_cast
    rw [← max_assoc, max_self]
  · refine le_min (by norm_num) (le_max_left _ _)
  · exact min_le_left _ _

/-- C9: maxDisplayedAmplitude treats the sum and difference toggles identically;
with either toggle alone the result is max(1, A1, A2, A1 + A2) — the difference
display also uses the A1 + A2 bound. -/
theorem maxDisplayedAmplitude_sum_diff (s1 s2 : SignalParams) :
    maxDisplayedAmplitude s1 (some s2) true false
        = maxDisplayedAmplitude s1 (some s2) false true ∧
      maxDisplayedAmplitude s1 (some s2) true false
        = max 1 (max s1.amplitude (max s2.amplitude (s1.amplitude + s2.amplitude))) := by
  constructor
  · simp [maxDisplayedAmplitude]
  · simp only [maxDisplayedAmplitude, if_pos, if_neg, Bool.false_eq_true,
      if_false, if_true]
    simp only [max_assoc]

/-- C4: the audio target gain computed on start() and on every parameter update
is clamp(amplitude / 5, 0, 1) * 0.2; at the maximum amplitude 5 it is exactly
0.2, and for every amplitude it never exceeds 0.2. -/
theorem safeGain_spec :
    (∀ a : ℝ, safeGain a = clamp (a / 5) 0 1 * 0.2) ∧
      safeGain 5 = 0.2 ∧ ∀ a : ℝ, safeGain a ≤ 0.2 := by
  refine ⟨fun a => rfl, ?_, fun a => ?_⟩
  · simp only [safeGain, clamp, MAX_AMPLITUDE, MAX_GAIN]
    norm_num
  · simp only [safeGain, clamp, MAX_AMPLITUDE, MAX_GAIN]
    nlinarith [min_le_left (1 : ℝ) (max 0 (a / 5))]

/-- C7: the frequency applied to the oscillator, on start() and on every
parameter update, is clamped into [20, 2000] Hz for every requested value. -/
theorem safeFrequency_clamped (f : ℝ) :
    20 ≤ safeFrequency f ∧ safeFrequency f ≤ 2000 := by
  constructor
  · simp only [safeFrequency, clamp, MIN_AUDIO_FREQUENCY, MAX_AUDIO_FREQUENCY]
    exact le_min (by norm_num) (le_max_left _ _)
  · simp only [safeFrequency, clamp, MIN_AUDIO_FREQUENCY, MAX_AUDIO_FREQUENCY]
    exact min_le_left _ _

/-- C6: handleReset sets tNow to 0, drops the stored frame timestamp and forces
the clock to Playing; from any prior state, the first tick after a reset leaves
tNow = 0 (it only establishes the baseline) and the second tick accumulates the
timestamp delta. -/
theorem reset_then_tick (s : ClockState) (ms1 ms2 : ℝ) :
    (handleReset s).tNow = 0 ∧ (handleReset s).lastRafMs = none ∧
      (handleReset s).isPlaying = true ∧
      (tick ms1 (handleReset s)).tNow = 0 ∧
      (tick ms2 (tick ms1 (handleReset s))).tNow = (ms2 - ms1) / 1000 := by
  refine ⟨rfl, rfl, rfl, ?_, ?_⟩
  · simp [tick, handleReset]
  · simp [tick, handleReset]

/-- C1: for any tick snapshot, the vertical component shown by the phasor view for signal 1
equals the last sample written into the waveform buffer for the same signal and
tNow: the sample at index sampleCount - 1 is evaluated exactly at tNow. -/
theorem phasor_matches_last_sample (tNow windowSec : ℝ) (s1 : SignalParams)
    (N : ℕ) (hN : 1 < N) :
    y1Buffer tNow windowSec N s1 (N - 1) = v1y tNow s1 := by
  have hcast : ((N - 1 : ℕ) : ℝ) = (N : ℝ) - 1 := by
    push_cast [Nat.one_le_iff_ne_zero.mpr (by omega : N ≠ 0)]
    ring
  have hne : (N : ℝ) - 1 ≠ 0 := by
    have : (2 : ℝ) ≤ (N : ℝ) := by exact_mod_cast hN
    linarith
  have ht : tStart tNow windowSec + ((N - 1 : ℕ) : ℝ) * invSample N * windowSec = tNow := by
    simp only [tStart, invSample, if_pos hN, hcast]
    field_simp
  simp only [y1Buffer, ht, signalAt, v1y]

/-- Witness for C1 at the snapshot of the claim: signal {A=1, f=1, phi=0},
tNow = 0.25, window 2 s, sampleCount 320. -/
theorem phasor_matches_last_sample_witness :
    y1Buffer 0.25 2 320 ⟨1, 1, 0⟩ (320 - 1) = v1y 0.25 ⟨1, 1, 0⟩ :=
  phasor_matches_last_sample 0.25 2 ⟨1, 1, 0⟩ 320 (by norm_num)

end AFPSim
